import Mathlib

/-!
Verification development for the Blocknet XBridge atomic-swap core.

The definitions below are shallow embeddings of the C++ sources
`src/xbridge/xbridgeapp.cpp`, `src/xbridge/xbridgewalletconnectorbch.cpp`
and `src/xbridge/util/xutil.cpp`.  Machine integers are modelled as `Nat`
(with explicit `% 2^w` where overflow matters), C++ `double` amounts as
exact rationals, `std::set`/`std::map` as duplicate-free lists and
association lists or option-valued maps, and fallible operations return
pairs or `Option`.
-/

namespace XBridge

/-- A wallet UTXO entry (`xbridge::wallet::UtxoEntry`).  Equality of entries
in the C++ sets uses `(txId, vout)` only. -/
structure UtxoEntry where
  txId : String
  vout : Nat
  address : String
  amount : ℚ
  deriving Repr, DecidableEq

/-- Set membership comparison of `wallet::UtxoEntry`: by `(txId, vout)` only. -/
def utxoEq (a b : UtxoEntry) : Bool :=
  a.txId == b.txId && a.vout == b.vout

/-- `std::set<UtxoEntry>::count` on a list-modelled set. -/
def containsUtxo (s : List UtxoEntry) (u : UtxoEntry) : Bool :=
  s.any (fun v => utxoEq v u)

/-- `std::set<UtxoEntry>::insert` of one element: no-op when an element equal
by `(txId, vout)` is already present. -/
def insertUtxo (s : List UtxoEntry) (u : UtxoEntry) : List UtxoEntry :=
  if containsUtxo s u then s else s ++ [u]

/-- Insert a range of entries (`set.insert(first, last)`). -/
def insertUtxos (s : List UtxoEntry) (us : List UtxoEntry) : List UtxoEntry :=
  us.foldl insertUtxo s

/-- `std::set<UtxoEntry> o(utxos.begin(), utxos.end())` — build a set from a
vector. -/
def setFromList (us : List UtxoEntry) : List UtxoEntry :=
  insertUtxos [] us

/-- `std::set<UtxoEntry>::erase` of every element of `us`, as in the loops of
`App::unlockCoins` / `App::unlockFeeUtxos`. -/
def eraseUtxos (s : List UtxoEntry) (us : List UtxoEntry) : List UtxoEntry :=
  us.foldl (fun acc u => acc.filter (fun v => ! utxoEq v u)) s

/-- The per-token order-lock dictionary `App::m_utxosDict`
(`map<std::string, std::set<wallet::UtxoEntry>>`), as an association list. -/
abbrev LockDict := List (String × List UtxoEntry)

/-- `m_utxosDict.count(token)`. -/
def dictCount (d : LockDict) (token : String) : Bool :=
  d.any (fun p => p.1 == token)

/-- Lookup of the locked set of a token (empty when absent). -/
def dictGet (d : LockDict) (token : String) : List UtxoEntry :=
  match d.find? (fun p => p.1 == token) with
  | some p => p.2
  | none => []

/-- Replace (or add) the set stored under a token. -/
def dictSet (d : LockDict) (token : String) (s : List UtxoEntry) : LockDict :=
  if dictCount d token then
    d.map (fun p => if p.1 == token then (p.1, s) else p)
  else
    d ++ [(token, s)]

/-- Embedding of `App::lockCoins` (xbridgeapp.cpp:2411-2432).  Returns the
`bool` result together with the updated dictionary. -/
def lockCoins (d : LockDict) (token : String) (utxos : List UtxoEntry) :
    Bool × LockDict :=
  if ¬ dictCount d token then
    (true, dictSet d token (setFromList utxos))
  else
    let o := dictGet d token
    if utxos.any (fun u => containsUtxo o u) then
      (false, d)
    else
      (true, dictSet d token (insertUtxos o utxos))

/-- Embedding of `App::unlockCoins` (xbridgeapp.cpp:2436-2448). -/
def unlockCoins (d : LockDict) (token : String) (utxos : List UtxoEntry) :
    LockDict :=
  if ¬ dictCount d token then
    d
  else
    dictSet d token (eraseUtxos (dictGet d token) utxos)

/-- Embedding of `App::lockFeeUtxos` (xbridgeapp.cpp:2377-2380): inserts the
given fee utxos into the global fee-lock set `m_feeUtxos`. -/
def lockFeeUtxos (feeSet : List UtxoEntry) (feeUtxos : List UtxoEntry) :
    List UtxoEntry :=
  insertUtxos feeSet feeUtxos

/-- Embedding of `App::unlockFeeUtxos` (xbridgeapp.cpp:2384-2388): erases the
given fee utxos from the global fee-lock set. -/
def unlockFeeUtxos (feeSet : List UtxoEntry) (feeUtxos : List UtxoEntry) :
    List UtxoEntry :=
  eraseUtxos feeSet feeUtxos

/-- Embedding of `App::getAllLockedUtxos` (xbridgeapp.cpp:2400-2407): union of
the fee locks and the per-token order locks. -/
def getAllLockedUtxos (feeSet : List UtxoEntry) (d : LockDict)
    (token : String) : List UtxoEntry :=
  insertUtxos (insertUtxos [] feeSet) (dictGet d token)

/-! ### Basic facts about the utxo-set operations -/

theorem utxoEq_refl (u : UtxoEntry) : utxoEq u u = true := by
  simp [utxoEq]

theorem containsUtxo_insertUtxo_mono (s : List UtxoEntry) (v u : UtxoEntry)
    (h : containsUtxo s u = true) : containsUtxo (insertUtxo s v) u = true := by
  unfold insertUtxo
  split
  · exact h
  · simp only [containsUtxo, List.any_append] at h ⊢
    simp [h]

theorem containsUtxo_insertUtxo_self (s : List UtxoEntry) (v : UtxoEntry) :
    containsUtxo (insertUtxo s v) v = true := by
  unfold insertUtxo
  split
  · assumption
  · simp [containsUtxo, List.any_append, utxoEq_refl]

theorem containsUtxo_insertUtxos_mono :
    ∀ (us s : List UtxoEntry) (u : UtxoEntry), containsUtxo s u = true →
      containsUtxo (insertUtxos s us) u = true := by
  intro us
  induction us with
  | nil => intro s u h; exact h
  | cons v rest ih =>
      intro s u h
      exact ih (insertUtxo s v) u (containsUtxo_insertUtxo_mono s v u h)

theorem containsUtxo_insertUtxos_of_mem :
    ∀ (us s : List UtxoEntry) (u : UtxoEntry), u ∈ us →
      containsUtxo (insertUtxos s us) u = true := by
  intro us
  induction us with
  | nil => intro s u h; cases h
  | cons v rest ih =>
      intro s u h
      cases h with
      | head =>
          exact containsUtxo_insertUtxos_mono rest (insertUtxo s v) v
            (containsUtxo_insertUtxo_self s v)
      | tail _ hmem => exact ih (insertUtxo s v) u hmem

theorem dictGet_map_update (token : String) (s : List UtxoEntry) :
    ∀ d : LockDict, dictCount d token = true →
      dictGet (d.map (fun p => if p.1 == token then (p.1, s) else p)) token
        = s := by
  intro d
  induction d with
  | nil => intro h; simp [dictCount] at h
  | cons p rest ih =>
      intro h
      by_cases hp : (p.1 == token) = true
      · simp [dictGet, List.find?, hp]
      · have h' : ((p.1 == token) || List.any rest (fun q => q.1 == token))
            = true := by
          simpa only [dictCount, List.any_cons] using h
        have hrest : dictCount rest token = true := by
          rcases Bool.or_eq_true_iff.mp h' with h1 | h2
          · exact absurd h1 hp
          · simpa only [dictCount] using h2
        simp only [List.map_cons, hp, ite_false]
        simpa [dictGet, List.find?, hp] using ih hrest

theorem find?_eq_none_of_dictCount_false (token : String) :
    ∀ d : LockDict, dictCount d token = false →
      d.find? (fun p => p.1 == token) = none := by
  intro d
  induction d with
  | nil => intro _; rfl
  | cons p rest ih =>
      intro h
      have h' : ((p.1 == token) || List.any rest (fun q => q.1 == token))
          = false := by
        simpa only [dictCount, List.any_cons] using h
      have h1 : (p.1 == token) = false := (Bool.or_eq_false_iff.mp h').1
      have h2 : dictCount rest token = false := by
        simpa only [dictCount] using (Bool.or_eq_false_iff.mp h').2
      simp [List.find?, h1, ih h2]

theorem dictGet_dictSet (d : LockDict) (token : String) (s : List UtxoEntry) :
    dictGet (dictSet d token s) token = s := by
  unfold dictSet
  by_cases h : dictCount d token
  · simp only [h, ite_true]
    exact dictGet_map_update token s d h
  · simp only [h, Bool.false_eq_true, ite_false]
    have hn := find?_eq_none_of_dictCount_false token d (by simpa using h)
    simp [dictGet, List.find?_append, hn, List.find?]

theorem dictGet_eq_nil_of_count_false (d : LockDict) (token : String)
    (h : dictCount d token = false) : dictGet d token = [] := by
  unfold dictGet
  rw [find?_eq_none_of_dictCount_false token d h]

/-- **C2.** For every currency token and every list of UTXOs,
`lockCoins token utxos` returns `false` and leaves the lock map unchanged if
some UTXO of the list (compared by txid and vout) is already present in the
lock manager's set for that token; otherwise it inserts all of the given
UTXOs into that set and returns `true`, so no UTXO can be locked by two
concurrent orders. -/
theorem lockCoins_spec (d : LockDict) (token : String)
    (utxos : List UtxoEntry) :
    (utxos.any (fun u => containsUtxo (dictGet d token) u) = true →
      lockCoins d token utxos = (false, d)) ∧
    (utxos.any (fun u => containsUtxo (dictGet d token) u) = false →
      (lockCoins d token utxos).1 = true ∧
      ∀ u ∈ utxos,
        containsUtxo (dictGet (lockCoins d token utxos).2 token) u = true) := by
  constructor
  · intro hov
    by_cases hc : dictCount d token = true
    · simp [lockCoins, hc, hov]
    · exfalso
      rcases List.any_eq_true.mp hov with ⟨u, hu, hcont⟩
      rw [dictGet_eq_nil_of_count_false d token (by simpa using hc)] at hcont
      simp [containsUtxo] at hcont
  · intro hov
    by_cases hc : dictCount d token = true
    · have h1 : lockCoins d token utxos
          = (true, dictSet d token (insertUtxos (dictGet d token) utxos)) := by
        simp [lockCoins, hc, hov]
      rw [h1]
      refine ⟨rfl, ?_⟩
      intro u hu
      rw [dictGet_dictSet]
      exact containsUtxo_insertUtxos_of_mem utxos (dictGet d token) u hu
    · have h1 : lockCoins d token utxos
          = (true, dictSet d token (setFromList utxos)) := by
        simp [lockCoins, hc]
      rw [h1]
      refine ⟨rfl, ?_⟩
      intro u hu
      rw [dictGet_dictSet]
      unfold setFromList
      exact containsUtxo_insertUtxos_of_mem utxos [] u hu

/-- Sample utxo used to instantiate hypotheses of the claim theorems. -/
def sampleUtxo : UtxoEntry :=
  { txId := "aa11", vout := 0, address := "addrA", amount := 5 }

/-- Witness for `lockCoins_spec`: on a dictionary that already locks
`sampleUtxo` for token `"BTC"`, locking it again fails and leaves the map
unchanged. -/
theorem lockCoins_spec_witness :
    lockCoins [("BTC", [sampleUtxo])] "BTC" [sampleUtxo]
      = (false, [("BTC", [sampleUtxo])]) :=
  (lockCoins_spec [("BTC", [sampleUtxo])] "BTC" [sampleUtxo]).1 (by decide)

/-! ### Orders and the application state -/

/-- Modelled from the spec: the order state enum of `TransactionDescr`
(`xbridgetransactiondescr.h` is not under `src/`).  Constructor order follows
the state list of spec §4.6; `stateRank` gives the corresponding rank used by
`state >= trAccepting` comparisons. -/
inductive TxState where
  | trNew
  | trPending
  | trAccepting
  | trHold
  | trInitializedWait
  | trInitialized
  | trCreatedWait
  | trCreated
  | trSignedWait
  | trSigned
  | trCommittedWait
  | trCommitted
  | trFinished
  | trCancelled
  | trRolledBack
  | trOffline
  | trExpired
  | trInvalid
  | trDropped
  deriving Repr, DecidableEq

/-- Numeric rank of a state, in the spec §4.6 listing order. -/
def stateRank : TxState → Nat
  | .trNew => 0
  | .trPending => 1
  | .trAccepting => 2
  | .trHold => 3
  | .trInitializedWait => 4
  | .trInitialized => 5
  | .trCreatedWait => 6
  | .trCreated => 7
  | .trSignedWait => 8
  | .trSigned => 9
  | .trCommittedWait => 10
  | .trCommitted => 11
  | .trFinished => 12
  | .trCancelled => 13
  | .trRolledBack => 14
  | .trOffline => 15
  | .trExpired => 16
  | .trInvalid => 17
  | .trDropped => 18

/-- The order descriptor (`xbridge::TransactionDescr`), restricted to the
fields the verified operations read or write.  Timestamps are seconds (for
`txtime`/`created` age computations), the service-node pubkey and order ids
are opaque numbers. -/
structure TransactionDescr where
  id : Nat
  state : TxState
  txtime : Int
  created : Int
  fromCurrency : String
  toCurrency : String
  usedCoins : List UtxoEntry
  feeUtxos : List UtxoEntry
  sPubKey : Nat
  excludedSnodes : List Nat
  isLocal : Bool
  deriving Repr, DecidableEq

/-- Modelled from the spec: `updateTimestamp(other)` on an existing entry
("existing, update timestamp" — the member lives in
`xbridgetransactiondescr.h`, not under `src/`). -/
def updateTimestamp (cur other : TransactionDescr) : TransactionDescr :=
  { cur with txtime := other.txtime }

/-- The parts of `App::Impl` state touched by the verified operations: the
live order map `m_transactions`, the history map `m_historicTransactions`,
the lock-manager maps `m_utxosDict` / `m_feeUtxos`, and (as a presence flag
per order id) the pending-packets map `m_pendingPackets`. -/
structure AppState where
  live : Nat → Option TransactionDescr
  hist : Nat → Option TransactionDescr
  utxosDict : LockDict
  feeUtxos : List UtxoEntry
  pendingPackets : Nat → Bool

/-- Embedding of `App::appendTransaction` (xbridgeapp.cpp:1304-1323). -/
def appendTransaction (s : AppState) (ptr : TransactionDescr) : AppState :=
  if (s.hist ptr.id).isSome then
    s
  else if (s.live ptr.id).isNone then
    { s with live := fun i => if i = ptr.id then some ptr else s.live i }
  else
    { s with live := fun i =>
        if i = ptr.id then (s.live i).map (fun cur => updateTimestamp cur ptr)
        else s.live i }

/-- Embedding of `App::moveTransactionToHistory` (xbridgeapp.cpp:1327-1364).
When the id is found live it is always erased from the live map; if the
history map already holds the id the function logs and returns early —
without unlocking the order's coins and without removing its pending
packets.  Otherwise the order is archived, its `usedCoins` are unlocked for
its `fromCurrency`, and `removePackets(id)` drops the pending packets. -/
def moveTransactionToHistory (s : AppState) (id : Nat) : AppState :=
  match s.live id with
  | some xtx =>
      let live' := fun i => if i = id then none else s.live i
      if (s.hist id).isSome then
        { s with live := live' }
      else
        { s with
            live := live',
            hist := fun i => if i = id then some xtx else s.hist i,
            utxosDict := unlockCoins s.utxosDict xtx.fromCurrency xtx.usedCoins,
            pendingPackets := fun i => if i = id then false else s.pendingPackets i }
  | none =>
      { s with pendingPackets := fun i => if i = id then false else s.pendingPackets i }

/-- The empty application state. -/
def initialAppState : AppState :=
  { live := fun _ => none
    hist := fun _ => none
    utxosDict := []
    feeUtxos := []
    pendingPackets := fun _ => false }

/-- States reachable from the empty state through the two order-archival
operations named by the invariant. -/
inductive Reachable : AppState → Prop where
  | init : Reachable initialAppState
  | append (s : AppState) (ptr : TransactionDescr) :
      Reachable s → Reachable (appendTransaction s ptr)
  | move (s : AppState) (id : Nat) :
      Reachable s → Reachable (moveTransactionToHistory s id)

/-- Per-id disjointness of the live and historical maps. -/
def mapsDisjoint (s : AppState) : Prop :=
  ∀ i, s.live i = none ∨ s.hist i = none

theorem appendTransaction_disjoint (s : AppState) (ptr : TransactionDescr)
    (h : mapsDisjoint s) : mapsDisjoint (appendTransaction s ptr) := by
  intro i
  unfold appendTransaction
  by_cases hh : (s.hist ptr.id).isSome
  · simp only [hh, ite_true]
    exact h i
  · simp only [hh, Bool.false_eq_true, ite_false]
    have hhn : s.hist ptr.id = none := by
      cases hc : s.hist ptr.id with
      | none => rfl
      | some v => rw [hc] at hh; simp at hh
    by_cases hl : (s.live ptr.id).isNone
    · simp only [hl, ite_true]
      by_cases hi : i = ptr.id
      · right; simpa [hi] using hhn
      · simp only [hi, ite_false]
        exact h i
    · simp only [hl, Bool.false_eq_true, ite_false]
      by_cases hi : i = ptr.id
      · right; simpa [hi] using hhn
      · simp only [hi, ite_false]
        exact h i

theorem moveTransactionToHistory_disjoint (s : AppState) (id : Nat)
    (h : mapsDisjoint s) : mapsDisjoint (moveTransactionToHistory s id) := by
  intro i
  unfold moveTransactionToHistory
  cases hl : s.live id with
  | none =>
      exact h i
  | some xtx =>
      by_cases hh : (s.hist id).isSome
      · simp only [hh, ite_true]
        by_cases hi : i = id
        · left; simp [hi]
        · simp only [hi, ite_false]
          exact h i
      · simp only [hh, Bool.false_eq_true, ite_false]
        by_cases hi : i = id
        · left; simp [hi]
        · simp only [hi, ite_false]
          exact h i

theorem reachable_mapsDisjoint (s : AppState) (h : Reachable s) :
    mapsDisjoint s := by
  induction h with
  | init => intro i; left; rfl
  | append s ptr _ ih => exact appendTransaction_disjoint s ptr ih
  | move s id _ ih => exact moveTransactionToHistory_disjoint s id ih

/-- **C8.** For every order id, at no reachable state is the order present in
both the live transactions map and the historical transactions map:
`appendTransaction` never adds an order that already exists in the history
map, and `moveTransactionToHistory` removes the order from the live map and
refuses to insert into the history map when an entry with the same id is
already there. -/
theorem liveHistory_never_both :
    (∀ (s : AppState) (ptr : TransactionDescr),
      (s.hist ptr.id).isSome = true → appendTransaction s ptr = s) ∧
    (∀ (s : AppState) (id : Nat),
      (moveTransactionToHistory s id).live id = none ∧
      ((s.hist id).isSome = true →
        (moveTransactionToHistory s id).hist = s.hist)) ∧
    (∀ s : AppState, Reachable s →
      ∀ i, s.live i = none ∨ s.hist i = none) := by
  refine ⟨?_, ?_, ?_⟩
  · intro s ptr h
    simp [appendTransaction, h]
  · intro s id
    constructor
    · unfold moveTransactionToHistory
      cases hl : s.live id with
      | none => exact hl
      | some xtx =>
          by_cases hh : (s.hist id).isSome <;> simp [hh]
    · intro hh
      unfold moveTransactionToHistory
      cases hl : s.live id with
      | none => rfl
      | some xtx => simp [hh]
  · exact fun s h => reachable_mapsDisjoint s h

/-- A sample local order used to instantiate the claim theorems. -/
def tx0 : TransactionDescr :=
  { id := 7
    state := .trPending
    txtime := 100
    created := 50
    fromCurrency := "BTC"
    toCurrency := "LTC"
    usedCoins := [sampleUtxo]
    feeUtxos := []
    sPubKey := 1
    excludedSnodes := []
    isLocal := true }

/-- An application state holding `tx0` in its history map. -/
def histState : AppState :=
  moveTransactionToHistory (appendTransaction initialAppState tx0) tx0.id

/-- Witness for `liveHistory_never_both`: re-appending an archived order is a
no-op, and the archived state keeps the maps disjoint at the order's id. -/
theorem liveHistory_never_both_witness :
    appendTransaction histState tx0 = histState ∧
    (histState.live tx0.id = none ∨ histState.hist tx0.id = none) := by
  constructor
  · exact liveHistory_never_both.1 histState tx0 (by decide)
  · exact liveHistory_never_both.2.2 histState
      (Reachable.move _ _ (Reachable.append _ _ Reachable.init)) tx0.id

/-! ### Unlock-erasure lemmas -/

theorem containsUtxo_filter_of_false (s : List UtxoEntry)
    (p : UtxoEntry → Bool) (u : UtxoEntry) (h : containsUtxo s u = false) :
    containsUtxo (s.filter p) u = false := by
  simp only [containsUtxo, List.any_eq_false] at h ⊢
  intro v hv
  exact h v (List.mem_of_mem_filter hv)

theorem containsUtxo_erase_self (s : List UtxoEntry) (u : UtxoEntry) :
    containsUtxo (s.filter (fun v => ! utxoEq v u)) u = false := by
  simp only [containsUtxo, List.any_eq_false]
  intro v hv
  have hp := List.of_mem_filter hv
  simp only [Bool.not_eq_true'] at hp
  simp [hp]

theorem containsUtxo_eraseUtxos_mono :
    ∀ (us s : List UtxoEntry) (u : UtxoEntry), containsUtxo s u = false →
      containsUtxo (eraseUtxos s us) u = false := by
  intro us
  induction us with
  | nil => intro s u h; exact h
  | cons w rest ih =>
      intro s u h
      exact ih (s.filter (fun v => ! utxoEq v w)) u
        (containsUtxo_filter_of_false s _ u h)

theorem containsUtxo_eraseUtxos_of_mem :
    ∀ (us s : List UtxoEntry) (u : UtxoEntry), u ∈ us →
      containsUtxo (eraseUtxos s us) u = false := by
  intro us
  induction us with
  | nil => intro s u h; cases h
  | cons w rest ih =>
      intro s u h
      cases h with
      | head =>
          exact containsUtxo_eraseUtxos_mono rest _ w
            (containsUtxo_erase_self s w)
      | tail _ hmem => exact ih _ u hmem

theorem containsUtxo_unlockCoins (d : LockDict) (token : String)
    (us : List UtxoEntry) (u : UtxoEntry) (h : u ∈ us) :
    containsUtxo (dictGet (unlockCoins d token us) token) u = false := by
  unfold unlockCoins
  by_cases hc : dictCount d token = true
  · rw [if_neg (fun hn => hn hc)]
    rw [dictGet_dictSet]
    exact containsUtxo_eraseUtxos_of_mem us (dictGet d token) u h
  · rw [if_pos hc]
    rw [dictGet_eq_nil_of_count_false d token (by simpa using hc)]
    simp [containsUtxo]

/-- **C10.** For every order present in the live transactions map (and, by
the reachable-state invariant of `liveHistory_never_both`, absent from the
history map), after `moveTransactionToHistory id` every UTXO of the order's
`usedCoins` has been removed from the lock manager's set for the order's
`fromCurrency`, the pending packets stored under the order id have been
removed, and orders other than the given id keep their live-map entries and
pending packets. -/
theorem moveTransactionToHistory_cleanup (s : AppState) (id : Nat)
    (x : TransactionDescr) (hl : s.live id = some x)
    (hh : s.hist id = none) :
    (∀ u ∈ x.usedCoins,
      containsUtxo
        (dictGet (moveTransactionToHistory s id).utxosDict x.fromCurrency) u
        = false) ∧
    (moveTransactionToHistory s id).pendingPackets id = false ∧
    (∀ j, j ≠ id →
      (moveTransactionToHistory s id).live j = s.live j ∧
      (moveTransactionToHistory s id).pendingPackets j = s.pendingPackets j)
    := by
  unfold moveTransactionToHistory
  rw [hl]
  simp only [hh, Option.isSome_none, Bool.false_eq_true, ite_false]
  refine ⟨?_, by simp, ?_⟩
  · intro u hu
    exact containsUtxo_unlockCoins s.utxosDict x.fromCurrency x.usedCoins u hu
  · intro j hj
    exact ⟨by simp [hj], by simp [hj]⟩

/-- An application state with `tx0` live, its used coin locked, and a pending
packet recorded. -/
def sampleState : AppState :=
  { live := fun i => if i = 7 then some tx0 else none
    hist := fun _ => none
    utxosDict := [("BTC", [sampleUtxo])]
    feeUtxos := []
    pendingPackets := fun i => i == 7 }

/-- Witness for `moveTransactionToHistory_cleanup` at the concrete state
`sampleState`. -/
theorem moveTransactionToHistory_cleanup_witness :
    containsUtxo
      (dictGet (moveTransactionToHistory sampleState 7).utxosDict "BTC")
      sampleUtxo = false ∧
    (moveTransactionToHistory sampleState 7).pendingPackets 7 = false :=
  ⟨(moveTransactionToHistory_cleanup sampleState 7 tx0 rfl rfl).1 sampleUtxo
      (by simp [tx0]),
   (moveTransactionToHistory_cleanup sampleState 7 tx0 rfl rfl).2.1⟩

/-! ### The periodic expiry sweep (`App::Impl::checkAndEraseExpiredTransactions`) -/

/-- Embedding of the per-order body of
`App::Impl::checkAndEraseExpiredTransactions` (xbridgeapp.cpp:2956-2998),
taken under the successfully acquired per-order try-lock.  `td`/`tc` are the
txtime-age and creation-age of the order at time `now`.  Returns the updated
order together with the flag that inserts the id into `forErase`. -/
def checkExpiredStep (pendingTTL TTL deadlineTTL now : Int)
    (tx : TransactionDescr) : TransactionDescr × Bool :=
  let td := now - tx.txtime
  let tc := now - tx.created
  if tx.state = .trNew ∧ td > pendingTTL then
    ({ tx with state := .trOffline }, false)
  else if tx.state = .trPending ∧ td > pendingTTL then
    ({ tx with state := .trExpired }, false)
  else if (tx.state = .trExpired ∨ tx.state = .trOffline) ∧ td < pendingTTL then
    ({ tx with state := .trPending }, false)
  else if (tx.state = .trExpired ∨ tx.state = .trOffline) ∧ td > TTL then
    (tx, true)
  else if tx.state = .trPending ∧ tc > deadlineTTL then
    (tx, true)
  else
    (tx, false)

/-- Embedding of the sweep of `App::Impl::checkAndEraseExpiredTransactions`:
every live order whose per-order lock is obtained by `TRY_LOCK` goes through
`checkExpiredStep`; orders whose lock is busy are skipped; the orders marked
`forErase` are erased from the live map afterwards. -/
def checkAndEraseExpiredTransactions (pendingTTL TTL deadlineTTL now : Int)
    (tryLock : Nat → Bool) (txs : List TransactionDescr) :
    List TransactionDescr :=
  let stepped := txs.map (fun tx =>
    if tryLock tx.id then checkExpiredStep pendingTTL TTL deadlineTTL now tx
    else (tx, false))
  (stepped.filter (fun p => ! p.2)).map Prod.fst

/-- **C5.** The expiry sweep, taking each order's lock with try-lock only,
performs exactly these transitions: a New order whose txtime-age exceeds
`pendingTTL` becomes Offline; a Pending order whose txtime-age exceeds
`pendingTTL` becomes Expired; an Expired or Offline order whose txtime-age
is below `pendingTTL` returns to Pending; an Expired or Offline order whose
txtime-age exceeds `TTL` is erased; a Pending order whose creation-age
exceeds `deadlineTTL` is erased; nothing else changes, and an order whose
try-lock fails is left untouched in the live set. -/
theorem checkAndEraseExpiredTransactions_spec
    (pendingTTL TTL deadlineTTL now : Int) (tx : TransactionDescr)
    (tryLock : Nat → Bool) :
    (tx.state = .trNew → now - tx.txtime > pendingTTL →
      checkExpiredStep pendingTTL TTL deadlineTTL now tx
        = ({ tx with state := .trOffline }, false)) ∧
    (tx.state = .trPending → now - tx.txtime > pendingTTL →
      checkExpiredStep pendingTTL TTL deadlineTTL now tx
        = ({ tx with state := .trExpired }, false)) ∧
    ((tx.state = .trExpired ∨ tx.state = .trOffline) →
      now - tx.txtime < pendingTTL →
      checkExpiredStep pendingTTL TTL deadlineTTL now tx
        = ({ tx with state := .trPending }, false)) ∧
    ((tx.state = .trExpired ∨ tx.state = .trOffline) →
      pendingTTL ≤ now - tx.txtime → now - tx.txtime > TTL →
      checkExpiredStep pendingTTL TTL deadlineTTL now tx = (tx, true)) ∧
    (tx.state = .trPending → now - tx.txtime ≤ pendingTTL →
      now - tx.created > deadlineTTL →
      checkExpiredStep pendingTTL TTL deadlineTTL now tx = (tx, true)) ∧
    ((tx.state = .trNew → now - tx.txtime ≤ pendingTTL) →
      (tx.state = .trPending →
        now - tx.txtime ≤ pendingTTL ∧ now - tx.created ≤ deadlineTTL) →
      ((tx.state = .trExpired ∨ tx.state = .trOffline) →
        pendingTTL ≤ now - tx.txtime ∧ now - tx.txtime ≤ TTL) →
      checkExpiredStep pendingTTL TTL deadlineTTL now tx = (tx, false)) ∧
    (∀ txs : List TransactionDescr, tx ∈ txs → tryLock tx.id = false →
      tx ∈ checkAndEraseExpiredTransactions pendingTTL TTL deadlineTTL now
        tryLock txs) := by
  refine ⟨?_, ?_, ?_, ?_, ?_, ?_, ?_⟩
  · intro h1 h2
    unfold checkExpiredStep
    rw [if_pos ⟨h1, h2⟩]
  · intro h1 h2
    unfold checkExpiredStep
    rw [if_neg (by simp [h1]), if_pos ⟨h1, h2⟩]
  · intro h1 h2
    unfold checkExpiredStep
    rcases h1 with h1 | h1 <;>
      rw [if_neg (by simp [h1]), if_neg (by simp [h1]),
        if_pos ⟨by simp [h1], h2⟩]
  · intro h1 h2 h3
    unfold checkExpiredStep
    rcases h1 with h1 | h1 <;>
      rw [if_neg (by simp [h1]), if_neg (by simp [h1]),
        if_neg (by rintro ⟨-, hlt⟩; omega), if_pos ⟨by simp [h1], h3⟩]
  · intro h1 h2 h3
    unfold checkExpiredStep
    rw [if_neg (by simp [h1]), if_neg (by rintro ⟨-, hgt⟩; omega),
      if_neg (by simp [h1]), if_neg (by simp [h1]), if_pos ⟨h1, h3⟩]
  · intro h1 h2 h3
    unfold checkExpiredStep
    dsimp only
    split_ifs with c1 c2 c3 c4 c5
    · exact absurd (h1 c1.1) (by have := c1.2; omega)
    · exact absurd ((h2 c2.1).1) (by have := c2.2; omega)
    · exact absurd (h3 c3.1).1 (by have := c3.2; omega)
    · exact absurd (h3 c4.1).2 (by have := c4.2; omega)
    · exact absurd ((h2 c5.1).2) (by have := c5.2; omega)
    · rfl
  · intro txs hmem hlock
    unfold checkAndEraseExpiredTransactions
    have hstep : (fun tx : TransactionDescr =>
        if tryLock tx.id then checkExpiredStep pendingTTL TTL deadlineTTL now tx
        else (tx, false)) tx = (tx, false) := by
      simp [hlock]
    refine List.mem_map.mpr ⟨(tx, false), ?_, rfl⟩
    refine List.mem_filter.mpr ⟨?_, by simp⟩
    exact hstep ▸ List.mem_map_of_mem _ hmem

/-- Witness for `checkAndEraseExpiredTransactions_spec`: with
`pendingTTL = 60`, the Pending order `tx0` (txtime-age 100 at time 200)
becomes Expired. -/
theorem checkAndEraseExpiredTransactions_spec_witness :
    checkExpiredStep 60 900 3000 200 tx0
      = ({ tx0 with state := .trExpired }, false) :=
  (checkAndEraseExpiredTransactions_spec 60 900 3000 200 tx0
    (fun _ => true)).2.1 rfl (by decide)

/-! ### The stuck-order relay pass (`App::Impl::checkAndRelayPendingOrders`) -/

/-- `std::set<CPubKey>::insert` on a list-modelled set of node keys. -/
def insertNode (s : List Nat) (x : Nat) : List Nat :=
  if s.contains x then s else s ++ [x]

/-- The external collaborators consulted by the relay pass:
`App::findNodeWithService` (front of the shuffled node list, `none` when the
list is empty) and `App::Impl::hasNodeService`. -/
structure RelayEnv where
  selectNode : List String → List Nat → Option Nat
  hasService : Nat → String → Bool

/-- Embedding of the per-order body of
`App::Impl::checkAndRelayPendingOrders` (xbridgeapp.cpp:2666-2729).  The
returned flag records whether `sendPendingTransaction` was invoked
(rebroadcast).  `excludeNode`/`assignServicenode` (members of
`TransactionDescr`, whose header is not under `src/`) are modelled from the
spec: they add the old node to the order's exclusion set and store the newly
selected service-node key. -/
def checkAndRelayPendingOrder (env : RelayEnv) (now : Int)
    (order : TransactionDescr) : TransactionDescr × Bool :=
  if order.isLocal = false then
    (order, false)
  else
    let pendingOrderShouldRebroadcast := decide (now - order.txtime ≥ 240)
    let newOrderShouldRebroadcast := decide (now - order.txtime ≥ 15)
    if newOrderShouldRebroadcast ∧ order.state = .trNew then
      let oldsnode := order.sPubKey
      let notIn := insertNode order.excludedSnodes oldsnode
      match env.selectNode [order.fromCurrency, order.toCurrency] notIn with
      | none => ({ order with txtime := now }, true)
      | some snode =>
          ({ order with
              excludedSnodes := insertNode order.excludedSnodes oldsnode,
              sPubKey := snode,
              txtime := now }, true)
    else if pendingOrderShouldRebroadcast ∧ order.state = .trPending then
      let order1 := { order with txtime := now }
      let oldsnode := order.sPubKey
      if env.hasService oldsnode order.fromCurrency = false ∨
          env.hasService oldsnode order.toCurrency = false then
        match env.selectNode [order.fromCurrency, order.toCurrency]
            (insertNode order.excludedSnodes oldsnode) with
        | none => (order1, true)
        | some snode =>
            ({ order1 with
                excludedSnodes := insertNode order1.excludedSnodes oldsnode,
                sPubKey := snode }, true)
      else
        (order1, true)
    else
      (order, false)

/-- A stuck local order in state New, 20 seconds old at time 120, assigned
to service node `1`. -/
def relayOrder : TransactionDescr :=
  { tx0 with state := .trNew, txtime := 100 }

/-- A relay environment in which no replacement service node is available. -/
def emptyRelayEnv : RelayEnv :=
  { selectNode := fun _ _ => none
    hasService := fun _ _ => true }

/-- Counterexample to **C6** as stated: `relayOrder` is local, in state New
and at least 15 seconds old, yet the relay pass leaves its assigned service
node unchanged — when no replacement node is available the code keeps the
current one (and still rebroadcasts), so no new node is "selected and
assigned". -/
theorem checkAndRelayPendingOrders_counterexample :
    relayOrder.isLocal = true ∧ relayOrder.state = .trNew ∧
    (120 : Int) - relayOrder.txtime ≥ 15 ∧
    (checkAndRelayPendingOrder emptyRelayEnv 120 relayOrder).1.sPubKey
      = relayOrder.sPubKey ∧
    (checkAndRelayPendingOrder emptyRelayEnv 120 relayOrder).2 = true := by
  refine ⟨rfl, rfl, by decide, ?_, ?_⟩ <;> rfl

/-- **C6 (amended).** On every tick, for every local order: a New order at
least 15 seconds old attempts to select a new service node excluding the
current one and the order's exclusion set — when one is found it is
assigned and the old node is added to the exclusion set, otherwise the
current node is kept — and in either case the txtime advances and the order
is rebroadcast; a Pending order at least 240 seconds old advances txtime
and rebroadcasts, re-selecting the service node (same fallback) only when
the current node no longer advertises both of the order's currencies;
nothing happens to other orders. -/
theorem checkAndRelayPendingOrders_amended (env : RelayEnv) (now : Int)
    (order : TransactionDescr) :
    (order.isLocal = false →
      checkAndRelayPendingOrder env now order = (order, false)) ∧
    (order.isLocal = true → order.state = .trNew → now - order.txtime ≥ 15 →
      checkAndRelayPendingOrder env now order
        = match env.selectNode [order.fromCurrency, order.toCurrency]
            (insertNode order.excludedSnodes order.sPubKey) with
          | none => ({ order with txtime := now }, true)
          | some snode =>
              ({ order with
                  excludedSnodes := insertNode order.excludedSnodes order.sPubKey,
                  sPubKey := snode,
                  txtime := now }, true)) ∧
    (order.isLocal = true → order.state = .trPending →
      now - order.txtime ≥ 240 →
      ((env.hasService order.sPubKey order.fromCurrency = true ∧
        env.hasService order.sPubKey order.toCurrency = true →
        checkAndRelayPendingOrder env now order
          = ({ order with txtime := now }, true)) ∧
       (env.hasService order.sPubKey order.fromCurrency = false ∨
        env.hasService order.sPubKey order.toCurrency = false →
        checkAndRelayPendingOrder env now order
          = match env.selectNode [order.fromCurrency, order.toCurrency]
              (insertNode order.excludedSnodes order.sPubKey) with
            | none => ({ order with txtime := now }, true)
            | some snode =>
                ({ order with
                    txtime := now,
                    excludedSnodes := insertNode order.excludedSnodes order.sPubKey,
                    sPubKey := snode }, true)))) ∧
    (¬ (order.state = .trNew ∧ now - order.txtime ≥ 15) →
      ¬ (order.state = .trPending ∧ now - order.txtime ≥ 240) →
      checkAndRelayPendingOrder env now order = (order, false)) := by
  refine ⟨?_, ?_, ?_, ?_⟩
  · intro h
    simp [checkAndRelayPendingOrder, h]
  · intro hl hs ht
    unfold checkAndRelayPendingOrder
    rw [if_neg (by simp [hl])]
    dsimp only
    rw [if_pos ⟨by simpa using ht, hs⟩]
  · intro hl hs ht
    constructor
    · intro ⟨hf, hto⟩
      unfold checkAndRelayPendingOrder
      rw [if_neg (by simp [hl])]
      dsimp only
      rw [if_neg (by simp [hs]), if_pos ⟨by simpa using ht, hs⟩,
        if_neg (by simp [hf, hto])]
    · intro hor
      unfold checkAndRelayPendingOrder
      rw [if_neg (by simp [hl])]
      dsimp only
      rw [if_neg (by simp [hs]), if_pos ⟨by simpa using ht, hs⟩,
        if_pos (by rcases hor with h | h <;> simp [h])]
  · intro h1 h2
    unfold checkAndRelayPendingOrder
    by_cases hl : order.isLocal = false
    · rw [if_pos hl]
    · rw [if_neg hl]
      dsimp only
      rw [if_neg (by rintro ⟨ha, hb⟩; exact h1 ⟨hb, by simpa using ha⟩),
        if_neg (by rintro ⟨ha, hb⟩; exact h2 ⟨hb, by simpa using ha⟩)]

/-- A relay environment that offers node `42` as the replacement. -/
def replacementRelayEnv : RelayEnv :=
  { selectNode := fun _ _ => some 42
    hasService := fun _ _ => true }

/-- Witness for `checkAndRelayPendingOrders_amended`: the stuck New order
`relayOrder` gets node `42` assigned, its old node `1` excluded, its txtime
advanced, and is rebroadcast. -/
theorem checkAndRelayPendingOrders_amended_witness :
    checkAndRelayPendingOrder replacementRelayEnv 120 relayOrder
      = ({ relayOrder with
            excludedSnodes := [1], sPubKey := 42, txtime := 120 }, true) := by
  have h := (checkAndRelayPendingOrders_amended replacementRelayEnv 120
    relayOrder).2.1 rfl rfl (by decide)
  simpa [replacementRelayEnv, insertNode, relayOrder, tx0] using h

/-! ### Service-node selection (`App::Impl::findShuffledNodesWithService`) -/

/-- A node-registry entry (`sn::ServiceNode`), restricted to the fields the
selector reads.  `inManagerList` records whether
`ServiceNodeMgr::getSn(pubkey)` finds the node (possibly after
decompressing the key) — the registry manager itself is an external
collaborator, not under `src/`. -/
structure ServiceNode where
  snodePubKey : Nat
  xbridgeVersion : Nat
  running : Bool
  serviceList : List String
  inManagerList : Bool
  deriving Repr, DecidableEq

/-- Embedding of the inner service loop of `findShuffledNodesWithService`
(xbridgeapp.cpp:2497-2504): walk the requested services with a countdown
that starts at the number of requested services; break on the first service
the wallet does not advertise; push the node exactly when the countdown
hits zero.  Note the loop body never runs for an empty request, so an empty
request never pushes. -/
def serviceSearchLoop (walletServices : List String) :
    List String → Nat → Bool
  | [], _ => false
  | serv :: rest, counter =>
      if walletServices.contains serv = false then false
      else if counter - 1 = 0 then true
      else serviceSearchLoop walletServices rest (counter - 1)

/-- The three `continue` filters plus the service loop of
`findShuffledNodesWithService` (xbridgeapp.cpp:2483-2504): version match,
not excluded, running, found by the service-node manager, and advertising
every requested service. -/
def nodeQualifies (requested : List String) (version : Nat)
    (notIn : List Nat) (x : ServiceNode) : Bool :=
  x.xbridgeVersion == version && !(notIn.contains x.snodePubKey) &&
    x.running && x.inManagerList &&
    serviceSearchLoop x.serviceList requested requested.length

/-- Embedding of `App::Impl::findShuffledNodesWithService`
(xbridgeapp.cpp:2474-2509).  The trailing `std::shuffle` with the
process-wide `static std::default_random_engine rng{0}` is modelled by the
`shuffle` argument, capturing the engine at its current state. -/
def findShuffledNodesWithService (shuffle : List Nat → List Nat)
    (snodes : List ServiceNode) (requested : List String) (version : Nat)
    (notIn : List Nat) : List Nat :=
  shuffle ((snodes.filter (nodeQualifies requested version notIn)).map
    (fun x => x.snodePubKey))

theorem serviceSearchLoop_spec (requested walletServices : List String) :
    serviceSearchLoop walletServices requested requested.length = true ↔
      (requested ≠ [] ∧
        ∀ s ∈ requested, walletServices.contains s = true) := by
  induction requested with
  | nil => simp [serviceSearchLoop]
  | cons serv rest ih =>
      cases rest with
      | nil => simp [serviceSearchLoop]
      | cons b bs =>
          rw [serviceSearchLoop]
          by_cases hc : walletServices.contains serv = false
          · rw [if_pos hc]
            constructor
            · intro h; cases h
            · rintro ⟨-, hall⟩
              rw [hall serv (by simp)] at hc
              cases hc
          · rw [if_neg hc,
              if_neg (by simp [List.length_cons, Nat.succ_sub_one])]
            have hc' : walletServices.contains serv = true := by
              simpa using hc
            have hlen : (serv :: b :: bs).length - 1 = (b :: bs).length := by
              simp
            rw [hlen, ih]
            constructor
            · rintro ⟨-, hall⟩
              exact ⟨by simp, by
                intro s hs
                rcases List.mem_cons.mp hs with h | h
                · rwa [h]
                · exact hall s h⟩
            · rintro ⟨-, hall⟩
              exact ⟨by simp, fun s hs => hall s (List.mem_cons_of_mem _ hs)⟩

/-- A sample registry node advertising BTC and LTC on protocol version 1. -/
def node0 : ServiceNode :=
  { snodePubKey := 5
    xbridgeVersion := 1
    running := true
    serviceList := ["BTC", "LTC"]
    inManagerList := true }

/-- Counterexample to **C9** as stated: with an empty set of requested
currencies, `node0` is running, has the requested version, is not excluded,
and its advertised service list is (trivially) a superset of the requested
currencies, yet the selector returns the empty list — the service countdown
loop never pushes a node for an empty request. -/
theorem findShuffledNodesWithService_counterexample :
    node0.running = true ∧ node0.xbridgeVersion = 1 ∧
    ([] : List Nat).contains node0.snodePubKey = false ∧
    (([] : List String).all (fun s => node0.serviceList.contains s)) = true ∧
    findShuffledNodesWithService (fun l => l) [node0] [] 1 [] = [] := by
  refine ⟨rfl, rfl, rfl, rfl, rfl⟩

/-- **C9 (amended).** Provided at least one currency is requested, and with
the `std::shuffle` call modelled by any permutation-producing function
(capturing the constant-seeded engine at its current state, so the ordering
is a deterministic function of that state), `findShuffledNodesWithService`
returns exactly the registry nodes that are running, have the requested
xbridge protocol version, are not in the exclusion set, are found by the
service-node manager lookup, and advertise every requested currency. -/
theorem findShuffledNodesWithService_amended
    (shuffle : List Nat → List Nat)
    (hshuffle : ∀ l : List Nat, (shuffle l).Perm l)
    (snodes : List ServiceNode) (requested : List String) (version : Nat)
    (notIn : List Nat) (hreq : requested ≠ []) (p : Nat) :
    p ∈ findShuffledNodesWithService shuffle snodes requested version notIn
      ↔ ∃ x ∈ snodes, x.snodePubKey = p ∧ x.running = true ∧
          x.xbridgeVersion = version ∧
          notIn.contains x.snodePubKey = false ∧
          x.inManagerList = true ∧
          ∀ s ∈ requested, x.serviceList.contains s = true := by
  unfold findShuffledNodesWithService
  rw [List.Perm.mem_iff (hshuffle _)]
  constructor
  · intro hp
    rcases List.mem_map.mp hp with ⟨x, hxf, hpk⟩
    rcases List.mem_filter.mp hxf with ⟨hxs, hq⟩
    unfold nodeQualifies at hq
    simp only [Bool.and_eq_true] at hq
    rcases hq with ⟨⟨⟨⟨hv, hn⟩, hr⟩, hm⟩, hl⟩
    refine ⟨x, hxs, hpk, hr, by simpa using hv, by simpa using hn, hm, ?_⟩
    exact ((serviceSearchLoop_spec requested x.serviceList).mp hl).2
  · rintro ⟨x, hxs, hpk, hr, hv, hn, hm, hs⟩
    refine List.mem_map.mpr ⟨x, List.mem_filter.mpr ⟨hxs, ?_⟩, hpk⟩
    unfold nodeQualifies
    simp only [Bool.and_eq_true]
    refine ⟨⟨⟨⟨by simp [hv], by simpa using hn⟩, hr⟩, hm⟩, ?_⟩
    exact (serviceSearchLoop_spec requested x.serviceList).mpr ⟨hreq, hs⟩

/-- Witness for `findShuffledNodesWithService_amended`: requesting
`["BTC"]` from a registry holding `node0`, with the reversing permutation
as shuffle, yields node key `5`. -/
theorem findShuffledNodesWithService_amended_witness :
    (5 : Nat) ∈ findShuffledNodesWithService List.reverse [node0] ["BTC"] 1 []
    :=
  (findShuffledNodesWithService_amended List.reverse
      (fun l => l.reverse_perm) [node0] ["BTC"] 1 [] (by simp) 5).mpr
    ⟨node0, by simp, rfl, rfl, rfl, rfl, rfl, by decide⟩

/-! ### UTXO selection (`App::selectUtxos`, xbridgeapp.cpp:2545-2650)

Amounts are C++ doubles in coin units; they are embedded as exact
rationals.  The numeric out-parameters `utxoAmount`/`fee1`/`fee2` of the
C++ function (uint64 casts of double products) are not part of claim C3
and are not modelled; the embedding returns the success flag and the
selected outputs. -/

/-- The `feeAmount` lambda of `App::selectUtxos`:
`amt + minTxFee1(inputs, outputs) + minTxFee2(1, 1)`. -/
def feeAmount (f1 f2 : Nat → Nat → ℚ) (amt : ℚ) (i o : Nat) : ℚ :=
  amt + f1 i o + f2 1 1

/-- The "ideal" predicate of the `selUtxos` lambda: a single input at least
`minAmount` and within `(minTxFee1(1,3) + minTxFee2(1,1)) * 1000` above it,
address-matching when a from-address was given. -/
def idealCheck (f1 f2 : Nat → Nat → ℚ) (addr : String) (minAmount : ℚ)
    (u : UtxoEntry) : Bool :=
  decide (u.amount ≥ minAmount) &&
    decide (u.amount < minAmount + (f1 1 3 + f2 1 1) * 1000) &&
    (u.address == addr || addr == "")

/-- The scanning loop of the `selUtxos` lambda: stop at the first ideal
input, otherwise partition the scanned inputs into `gt` (at least
`minAmount`) and `lt` (below it). -/
def selScan (ideal : UtxoEntry → Bool) (minAmount : ℚ) :
    List UtxoEntry → Option UtxoEntry × List UtxoEntry × List UtxoEntry
  | [] => (none, [], [])
  | u :: rest =>
      if ideal u then (some u, [], [])
      else
        let r := selScan ideal minAmount rest
        if u.amount ≥ minAmount then (r.1, u :: r.2.1, r.2.2)
        else (r.1, r.2.1, u :: r.2.2)

/-- Running total of a selection net of the fees recomputed on the current
input count: `Σ amounts − (minTxFee1(|sel|, 3) + minTxFee2(1, 1))`. -/
def netTotal (f1 f2 : Nat → Nat → ℚ) (sel : List UtxoEntry) : ℚ :=
  (sel.map (fun v => v.amount)).sum - (f1 sel.length 3 + f2 1 1)

/-- The accumulation loop of the `selUtxos` lambda over the
descending-sorted `lt` inputs: push each input into `sel`, recompute the
fees on the current input count, and stop with `sel` as soon as the running
total net of fees reaches `minAmount`; produce nothing when the threshold
is never reached. -/
def accLoop (f1 f2 : Nat → Nat → ℚ) (minAmount : ℚ) :
    List UtxoEntry → List UtxoEntry → List UtxoEntry
  | [], _ => []
  | u :: rest, sel =>
      let sel' := sel ++ [u]
      if netTotal f1 f2 sel' ≥ minAmount then sel'
      else accLoop f1 f2 minAmount rest sel'

/-- Insertion step of the descending insertion sort (`a.amount > b.amount`
comparator of `App::selectUtxos`). -/
def insertDesc (u : UtxoEntry) : List UtxoEntry → List UtxoEntry
  | [] => [u]
  | v :: rest =>
      if u.amount > v.amount then u :: v :: rest else v :: insertDesc u rest

/-- Sort by amount, descending (deterministic model of `std::sort` with the
`a.amount > b.amount` comparator). -/
def sortDesc : List UtxoEntry → List UtxoEntry
  | [] => []
  | u :: rest => insertDesc u (sortDesc rest)

/-- Insertion step of the ascending insertion sort (`a.amount < b.amount`
comparator used on `gt`). -/
def insertAsc (u : UtxoEntry) : List UtxoEntry → List UtxoEntry
  | [] => [u]
  | v :: rest =>
      if u.amount < v.amount then u :: v :: rest else v :: insertAsc u rest

/-- Sort by amount, ascending. -/
def sortAsc : List UtxoEntry → List UtxoEntry
  | [] => []
  | u :: rest => insertAsc u (sortAsc rest)

/-- The `selUtxos` lambda of `App::selectUtxos`: ideal single input first;
otherwise the lone `gt` entry, or the smallest `gt` entry, or (failing with
fewer than two `lt` entries) the descending accumulation over `lt`. -/
def selUtxos (f1 f2 : Nat → Nat → ℚ) (addr : String) (a : List UtxoEntry)
    (amt : ℚ) : List UtxoEntry :=
  let minAmount := feeAmount f1 f2 amt 1 3
  match selScan (idealCheck f1 f2 addr minAmount) minAmount a with
  | (some u, _, _) => [u]
  | (none, gt, lt) =>
      if gt.length = 1 then gt
      else if gt.length > 1 then
        match sortAsc gt with
        | [] => []
        | g :: _ => [g]
      else if lt.length < 2 then []
      else accLoop f1 f2 minAmount (sortDesc lt) []

/-- Embedding of `App::selectUtxos`: sort the available outputs by amount
descending, run `selUtxos` on `requiredAmount / coinDenomination`, succeed
iff some outputs were selected. -/
def selectUtxos (f1 f2 : Nat → Nat → ℚ) (addr : String)
    (outputs : List UtxoEntry) (requiredAmount coinDenomination : Nat) :
    Bool × List UtxoEntry :=
  let utxos := sortDesc outputs
  let o := selUtxos f1 f2 addr utxos
    ((requiredAmount : ℚ) / (coinDenomination : ℚ))
  (!o.isEmpty, o)

/-- The first (shortest) prefix of `l` whose running total net of fees on
the current input count reaches `need`, if any. -/
def firstPrefixReaching (f1 f2 : Nat → Nat → ℚ) (need : ℚ)
    (l : List UtxoEntry) : Option (List UtxoEntry) :=
  match (List.range l.length).find?
      (fun i => decide (netTotal f1 f2 (l.take (i + 1)) ≥ need)) with
  | some i => some (l.take (i + 1))
  | none => none

/-- Transcription of claim C3's algorithm, written from the claim's words:
with `need = amount + fee1(1,3) + fee2(1,1)`, first return a single
candidate in `[need, need + 1000·(fee1(1,3)+fee2(1,1)))` matching the given
from-address if one was given; otherwise split the candidates into `gt`
(amount ≥ need) and `lt` (amount < need); return the lone `gt` element if
`|gt| = 1`, the smallest `gt` element if `|gt| > 1`; fail if `|gt| = 0` and
`|lt| < 2`; otherwise accumulate `lt` entries in descending amount order
until the running total net of fees recomputed on the current input count
reaches `need`, failing if the total is never reached. -/
def selectUtxosClaim (f1 f2 : Nat → Nat → ℚ) (addr : String)
    (outputs : List UtxoEntry) (requiredAmount coinDenomination : Nat) :
    Bool × List UtxoEntry :=
  let amount := (requiredAmount : ℚ) / (coinDenomination : ℚ)
  let need := amount + f1 1 3 + f2 1 1
  let candidates := sortDesc outputs
  match candidates.find? (idealCheck f1 f2 addr need) with
  | some u => (true, [u])
  | none =>
      let gt := candidates.filter (fun u => decide (u.amount ≥ need))
      let lt := candidates.filter (fun u => decide (u.amount < need))
      if gt.length = 1 then (true, gt)
      else if gt.length > 1 then
        match sortAsc gt with
        | [] => (false, [])
        | g :: _ => (true, [g])
      else if lt.length < 2 then (false, [])
      else
        match firstPrefixReaching f1 f2 need (sortDesc lt) with
        | some sel => (true, sel)
        | none => (false, [])

theorem selScan_fst (ideal : UtxoEntry → Bool) (m : ℚ) :
    ∀ l : List UtxoEntry, (selScan ideal m l).1 = l.find? ideal := by
  intro l
  induction l with
  | nil => rfl
  | cons u rest ih =>
      by_cases hi : ideal u = true
      · simp [selScan, List.find?, hi]
      · have hi' : ideal u = false := by simpa using hi
        by_cases ha : u.amount ≥ m
        · simp [selScan, List.find?, hi', ha, ih]
        · simp [selScan, List.find?, hi', ha, ih]

theorem selScan_none_eq (ideal : UtxoEntry → Bool) (m : ℚ) :
    ∀ l : List UtxoEntry, l.find? ideal = none →
      selScan ideal m l
        = (none, l.filter (fun u => decide (u.amount ≥ m)),
            l.filter (fun u => ! decide (u.amount ≥ m))) := by
  intro l
  induction l with
  | nil => intro _; rfl
  | cons u rest ih =>
      intro h
      have hall := List.find?_eq_none.mp h
      have hi : ideal u = false := by
        have := hall u (List.mem_cons_self u rest)
        simpa using this
      have hrest : rest.find? ideal = none :=
        List.find?_eq_none.mpr
          (fun x hx => hall x (List.mem_cons_of_mem _ hx))
      by_cases ha : u.amount ≥ m
      · simp [selScan, hi, ha, ih hrest, List.filter_cons]
      · simp [selScan, hi, ha, ih hrest, List.filter_cons]

theorem accLoop_eq (f1 f2 : Nat → Nat → ℚ) (m : ℚ) :
    ∀ (l pre : List UtxoEntry),
      accLoop f1 f2 m l pre =
        match (List.range l.length).find?
            (fun i => decide (netTotal f1 f2 (pre ++ l.take (i + 1)) ≥ m))
          with
        | some i => pre ++ l.take (i + 1)
        | none => [] := by
  intro l
  induction l with
  | nil => intro pre; rfl
  | cons u rest ih =>
      intro pre
      rw [accLoop]
      by_cases h0 : netTotal f1 f2 (pre ++ [u]) ≥ m
      · rw [if_pos h0]
        have hf : (List.range (u :: rest).length).find?
            (fun i =>
              decide (netTotal f1 f2 (pre ++ (u :: rest).take (i + 1)) ≥ m))
            = some 0 := by
          rw [show (u :: rest).length = rest.length + 1 from rfl,
            List.range_succ_eq_map, List.find?_cons]
          simp [List.take, h0]
        rw [hf]
        rfl
      · rw [if_neg h0]
        rw [ih (pre ++ [u])]
        have hr : (List.range (u :: rest).length).find?
            (fun i =>
              decide (netTotal f1 f2 (pre ++ (u :: rest).take (i + 1)) ≥ m))
            = ((List.range rest.length).find?
                (fun i =>
                  decide (netTotal f1 f2 ((pre ++ [u]) ++ rest.take (i + 1))
                    ≥ m))).map Nat.succ := by
          rw [show (u :: rest).length = rest.length + 1 from rfl,
            List.range_succ_eq_map, List.find?_cons]
          have h0' : decide (netTotal f1 f2 (pre ++ (u :: rest).take (0 + 1))
              ≥ m) = false := by
            simp [List.take, h0]
          rw [h0', List.find?_map]
          dsimp only
          congr 1
          congr 1
          funext i
          simp [Function.comp, List.append_assoc]
        rw [hr]
        cases hfind : (List.range rest.length).find?
            (fun i =>
              decide (netTotal f1 f2 ((pre ++ [u]) ++ rest.take (i + 1)) ≥ m))
            with
        | none => simp
        | some i => simp [List.append_assoc]

theorem accLoop_nil_pre (f1 f2 : Nat → Nat → ℚ) (m : ℚ)
    (l : List UtxoEntry) :
    accLoop f1 f2 m l [] =
      match firstPrefixReaching f1 f2 m l with
      | some sel => sel
      | none => [] := by
  rw [accLoop_eq]
  unfold firstPrefixReaching
  have hp : (fun i => decide (netTotal f1 f2 ([] ++ l.take (i + 1)) ≥ m))
      = (fun i => decide (netTotal f1 f2 (l.take (i + 1)) ≥ m)) := by
    funext i
    rw [List.nil_append]
  rw [hp]
  cases hf : (List.range l.length).find?
      (fun i => decide (netTotal f1 f2 (l.take (i + 1)) ≥ m)) with
  | none => rfl
  | some i => simp

theorem firstPrefixReaching_ne_nil (f1 f2 : Nat → Nat → ℚ) (need : ℚ)
    (l sel : List UtxoEntry)
    (h : firstPrefixReaching f1 f2 need l = some sel) : sel ≠ [] := by
  unfold firstPrefixReaching at h
  cases hf : (List.range l.length).find?
      (fun i => decide (netTotal f1 f2 (l.take (i + 1)) ≥ need)) with
  | none => rw [hf] at h; cases h
  | some i =>
      rw [hf] at h
      have hsel : sel = l.take (i + 1) := by
        cases h; rfl
      have hi : i < l.length :=
        List.mem_range.mp (List.mem_of_find?_eq_some hf)
      subst hsel
      have hlen : (l.take (i + 1)).length = min (i + 1) l.length :=
        List.length_take _ _
      intro hnil
      rw [hnil] at hlen
      simp at hlen
      omega

/-- **C3.** `selectUtxos` follows the algorithm specified in claim C3:
the code embedding `selectUtxos` (sort candidates descending, ideal single
input, gt/lt split, smallest-gt, descending accumulation with fees
recomputed on the current input count) computes exactly the
`selectUtxosClaim` transcription of the claim's words, for every pair of
fee functions, from-address, candidate set and target amount. -/
theorem selectUtxos_spec (f1 f2 : Nat → Nat → ℚ) (addr : String)
    (outputs : List UtxoEntry) (requiredAmount coinDenomination : Nat) :
    selectUtxos f1 f2 addr outputs requiredAmount coinDenomination
      = selectUtxosClaim f1 f2 addr outputs requiredAmount coinDenomination
    := by
  unfold selectUtxos selectUtxosClaim selUtxos feeAmount
  dsimp only
  set N := (requiredAmount : ℚ) / (coinDenomination : ℚ) + f1 1 3 + f2 1 1
    with hN
  cases hfind : (sortDesc outputs).find? (idealCheck f1 f2 addr N) with
  | some u =>
      rcases hscan : selScan (idealCheck f1 f2 addr N) N (sortDesc outputs)
        with ⟨o, gt, lt⟩
      have hfst := selScan_fst (idealCheck f1 f2 addr N) N (sortDesc outputs)
      rw [hscan, hfind] at hfst
      dsimp only at hfst
      subst hfst
      rfl
  | none =>
      have hs := selScan_none_eq (idealCheck f1 f2 addr N) N
        (sortDesc outputs) hfind
      rw [hs]
      dsimp only
      have hlt : (sortDesc outputs).filter (fun u => ! decide (u.amount ≥ N))
          = (sortDesc outputs).filter (fun u => decide (u.amount < N)) := by
        apply List.filter_congr
        intro x _
        rw [← decide_not]
        exact decide_eq_decide.mpr not_le
      rw [hlt]
      by_cases h1 : ((sortDesc outputs).filter
          (fun u => decide (u.amount ≥ N))).length = 1
      · simp only [if_pos h1]
        obtain ⟨g, hg⟩ := List.length_eq_one.mp h1
        rw [hg]
        rfl
      · simp only [if_neg h1]
        by_cases h2 : ((sortDesc outputs).filter
            (fun u => decide (u.amount ≥ N))).length > 1
        · simp only [if_pos h2]
          cases hsa : sortAsc ((sortDesc outputs).filter
              (fun u => decide (u.amount ≥ N))) with
          | nil => rfl
          | cons g t => rfl
        · simp only [if_neg h2]
          by_cases h3 : ((sortDesc outputs).filter
              (fun u => decide (u.amount < N))).length < 2
          · simp only [if_pos h3]
            rfl
          · simp only [if_neg h3]
            rw [accLoop_nil_pre]
            cases hfp : firstPrefixReaching f1 f2 N
                (sortDesc ((sortDesc outputs).filter
                  (fun u => decide (u.amount < N)))) with
            | none => rfl
            | some sel =>
                have hne := firstPrefixReaching_ne_nil f1 f2 N _ sel hfp
                cases sel with
                | nil => exact absurd rfl hne
                | cons a t => rfl

/-! ### BCH FORKID sighash (`xbridgewalletconnectorbch.cpp`)

Bytes are `Nat` values below 256; serialization mirrors the Bitcoin wire
format written by `CHashWriter`; the double-SHA256 of `CHashWriter.GetHash`
is the abstract hash parameter `H`. -/

/-- Little-endian serialization of a 32-bit word. -/
def ser32LE (n : Nat) : List Nat :=
  [n % 256, n / 2 ^ 8 % 256, n / 2 ^ 16 % 256, n / 2 ^ 24 % 256]

/-- Little-endian serialization of a 64-bit word. -/
def ser64LE (n : Nat) : List Nat :=
  [n % 256, n / 2 ^ 8 % 256, n / 2 ^ 16 % 256, n / 2 ^ 24 % 256,
   n / 2 ^ 32 % 256, n / 2 ^ 40 % 256, n / 2 ^ 48 % 256, n / 2 ^ 56 % 256]

/-- Bitcoin CompactSize length prefix. -/
def compactSize (n : Nat) : List Nat :=
  if n < 253 then [n]
  else if n < 2 ^ 16 then [253, n % 256, n / 2 ^ 8 % 256]
  else if n < 2 ^ 32 then [254] ++ ser32LE n
  else [255] ++ ser64LE n

/-- A transaction outpoint: 32-byte txid plus output index. -/
structure OutPoint where
  hash : List Nat
  n : Nat
  deriving Repr, DecidableEq

/-- Serialization of a `COutPoint`: txid bytes then 32-bit LE index. -/
def serOutPoint (o : OutPoint) : List Nat :=
  o.hash ++ ser32LE o.n

/-- A transaction input (the sighash reads `prevout` and `nSequence`). -/
structure CTxIn where
  prevout : OutPoint
  scriptSig : List Nat
  nSequence : Nat
  deriving Repr, DecidableEq

/-- A transaction output. -/
structure CTxOut where
  nValue : Nat
  scriptPubKey : List Nat
  deriving Repr, DecidableEq

/-- Serialization of a `CTxOut`: 64-bit LE value then length-prefixed
script. -/
def serTxOut (o : CTxOut) : List Nat :=
  ser64LE o.nValue ++ compactSize o.scriptPubKey.length ++ o.scriptPubKey

/-- The transaction shape consumed by `SignatureHash` (modelled from the
fields `xbridge::CTransaction` exposes to it; `xbitcointransaction.h` is
not under `src/`). -/
structure CTransaction where
  nVersion : Nat
  vin : List CTxIn
  vout : List CTxOut
  nLockTime : Nat
  deriving Repr, DecidableEq

def defaultOutPoint : OutPoint := ⟨List.replicate 32 0, 0⟩

def defaultTxIn : CTxIn := ⟨defaultOutPoint, [], 0⟩

def defaultTxOut : CTxOut := ⟨0, []⟩

/-- Script serialization as hashed by `CHashWriter << CScript`:
CompactSize length prefix followed by the bytes. -/
def serScript (s : List Nat) : List Nat :=
  compactSize s.length ++ s

/-- A zero `uint256` (the value returned on the unreachable non-FORKID
path, and the placeholder component hashes). -/
def zero32 : List Nat := List.replicate 32 0

/-- `SigHashType::getForkValue`: `sigHash >> 8`. -/
def getForkValue (s : Nat) : Nat := s / 2 ^ 8

/-- `SigHashType::withForkValue`: `(forkId << 8) | (sigHash & 0xff)` in
32-bit arithmetic. -/
def withForkValue (s f : Nat) : Nat := (f * 2 ^ 8 + s % 2 ^ 8) % 2 ^ 32

/-- `SigHashType::hasForkId`: `(sigHash & SIGHASH_FORKID) != 0`. -/
def hasForkId (s : Nat) : Bool := decide (Nat.land s 0x40 ≠ 0)

/-- `SigHashType::hasAnyoneCanPay`: `(sigHash & SIGHASH_ANYONECANPAY) != 0`. -/
def hasAnyoneCanPay (s : Nat) : Bool := decide (Nat.land s 0x80 ≠ 0)

/-- `SigHashType::getBaseType`: `sigHash & 0x1f` (1 = ALL, 2 = NONE,
3 = SINGLE). -/
def getBaseType (s : Nat) : Nat := Nat.land s 0x1f

/-- `SigHashType::withForkId`: `(sigHash & ~SIGHASH_FORKID) | SIGHASH_FORKID`. -/
def withForkIdFlag (s : Nat) : Nat := Nat.lor (Nat.land s 0xffffffbf) 0x40

/-- `SigHashType(SIGHASH_ALL).withForkId()` — the sighash type every BCH
connector signature uses (`createRefundTransaction`,
`createPaymentTransaction`). -/
def bchSigHashAll : Nat := withForkIdFlag 1

/-- The replay-protection rewrite applied at the top of `SignatureHash`
(xbridgewalletconnectorbch.cpp:200-206): the new fork value is
`0xff0000 | (getForkValue ^ 0xdead)`. -/
def bchTransformedSigHashType (s : Nat) : Nat :=
  withForkValue s (Nat.lor 0xff0000 (Nat.xor (getForkValue s) 0xdead))

/-- `GetPrevoutHash`: hash of the concatenated serialized prevouts. -/
def GetPrevoutHash (H : List Nat → List Nat) (tx : CTransaction) :
    List Nat :=
  H ((tx.vin.map (fun txin => serOutPoint txin.prevout)).flatten)

/-- `GetSequenceHash`: hash of the concatenated 32-bit LE sequences. -/
def GetSequenceHash (H : List Nat → List Nat) (tx : CTransaction) :
    List Nat :=
  H ((tx.vin.map (fun txin => ser32LE txin.nSequence)).flatten)

/-- `GetOutputsHash`: hash of the concatenated serialized outputs. -/
def GetOutputsHash (H : List Nat → List Nat) (tx : CTransaction) :
    List Nat :=
  H ((tx.vout.map serTxOut).flatten)

/-- Embedding of the BCH `SignatureHash`
(xbridgewalletconnectorbch.cpp:190-295).  `flags` is fixed to
`SCRIPT_ENABLE_SIGHASH_FORKID | SCRIPT_ENABLE_REPLAY_PROTECTION`, so the
replay-protection fork-value rewrite always runs; the non-FORKID branch
returns the zero hash. -/
def SignatureHash (H : List Nat → List Nat) (scriptCode : List Nat)
    (tx : CTransaction) (nIn : Nat) (sigHashType : Nat) (amount : Nat) :
    List Nat :=
  let s := bchTransformedSigHashType sigHashType
  if hasForkId s then
    let hashPrevouts :=
      if ¬ hasAnyoneCanPay s then GetPrevoutHash H tx else zero32
    let hashSequence :=
      if ¬ hasAnyoneCanPay s ∧ getBaseType s ≠ 3 ∧ getBaseType s ≠ 2 then
        GetSequenceHash H tx
      else zero32
    let hashOutputs :=
      if getBaseType s ≠ 3 ∧ getBaseType s ≠ 2 then GetOutputsHash H tx
      else if getBaseType s = 3 ∧ nIn < tx.vout.length then
        H (serTxOut (tx.vout.getD nIn defaultTxOut))
      else zero32
    let txin := tx.vin.getD nIn defaultTxIn
    H (ser32LE tx.nVersion ++ hashPrevouts ++ hashSequence ++
       serOutPoint txin.prevout ++ serScript scriptCode ++
       ser64LE amount ++ ser32LE txin.nSequence ++ hashOutputs ++
       ser32LE tx.nLockTime ++ ser32LE s)
  else zero32

/-- The sighash byte appended to every produced signature
(`signature.push_back(uint8_t(sigHashType.getRawSigHashType()))`). -/
def appendSigHashByte (sig : List Nat) (s : Nat) : List Nat :=
  sig ++ [s % 256]

/-- Counterexample to **C4** as stated: the connector signs with sighash
type `0x41`, whose fork value is `0`; the claim says replay protection
"xors the fork value with 0xdead", which would give transformed type
`0xdead41`, but the code additionally forces the high byte `0xff`
(`0xff0000 | (fork ^ 0xdead)`), producing fork value `0xffdead` and
serialized sighash type `0xffdead41`. -/
theorem SignatureHash_replayProtection_counterexample :
    bchSigHashAll = 0x41 ∧
    bchTransformedSigHashType bchSigHashAll
      ≠ withForkValue bchSigHashAll
          (Nat.xor (getForkValue bchSigHashAll) 0xdead) ∧
    getForkValue (bchTransformedSigHashType bchSigHashAll) = 0xffdead := by
  refine ⟨by decide, by decide, by decide⟩

/-- **C4 (amended).** For every BCH transaction signed by the connector
(sighash type `SIGHASH_ALL | SIGHASH_FORKID = 0x41`), `SignatureHash`
computes the FORKID digest: the preimage is the concatenation `nVersion ‖
hashPrevouts ‖ hashSequence ‖ outpoint ‖ scriptCode ‖ amount ‖ nSequence ‖
hashOutputs ‖ nLockTime ‖ sigHashType`, the component hashes being the
digest `H` of the concatenated fields; replay protection xors the fork
value with `0xdead` *and forces its high byte to `0xff`* (yielding
serialized type `0xffdead41`); and the single sighash byte appended to
every produced signature equals `0x41`. -/
theorem SignatureHash_forkid_spec (H : List Nat → List Nat)
    (scriptCode : List Nat) (tx : CTransaction) (nIn amount : Nat)
    (sig : List Nat) :
    SignatureHash H scriptCode tx nIn bchSigHashAll amount
      = H (ser32LE tx.nVersion
          ++ H ((tx.vin.map (fun txin => serOutPoint txin.prevout)).flatten)
          ++ H ((tx.vin.map (fun txin => ser32LE txin.nSequence)).flatten)
          ++ serOutPoint (tx.vin.getD nIn defaultTxIn).prevout
          ++ serScript scriptCode
          ++ ser64LE amount
          ++ ser32LE (tx.vin.getD nIn defaultTxIn).nSequence
          ++ H ((tx.vout.map serTxOut).flatten)
          ++ ser32LE tx.nLockTime
          ++ ser32LE 0xffdead41) ∧
    bchTransformedSigHashType bchSigHashAll
      = withForkValue bchSigHashAll
          (Nat.lor 0xff0000 (Nat.xor (getForkValue bchSigHashAll) 0xdead)) ∧
    appendSigHashByte sig bchSigHashAll = sig ++ [0x41] := by
  refine ⟨?_, by decide, rfl⟩
  have hs : bchTransformedSigHashType bchSigHashAll = 0xffdead41 := by decide
  simp only [SignatureHash]
  rw [hs]
  rw [if_pos (show hasForkId 0xffdead41 = true by decide)]
  rw [if_pos (show ¬ hasAnyoneCanPay 0xffdead41 = true by decide)]
  rw [if_pos (show ¬ hasAnyoneCanPay 0xffdead41 = true ∧
      getBaseType 0xffdead41 ≠ 3 ∧ getBaseType 0xffdead41 ≠ 2 by decide)]
  rw [if_pos (show getBaseType 0xffdead41 ≠ 3 ∧ getBaseType 0xffdead41 ≠ 2
      by decide)]
  unfold GetPrevoutHash GetSequenceHash GetOutputsHash
  rfl

/-! ### Taker accept (`App::acceptXBridgeTransaction`, xbridgeapp.cpp:1675-1970) -/

/-- The error codes returned by `acceptXBridgeTransaction` (names as used in
the source, including the `INSIFFICIENT` spelling). -/
inductive XBridgeError where
  | SUCCESS
  | TRANSACTION_NOT_FOUND
  | BAD_REQUEST
  | NO_SESSION
  | DUST
  | INSIFFICIENT_FUNDS
  | INSIFFICIENT_FUNDS_DX
  | NO_SERVICE_NODE
  | INVALID_ONCHAIN_HISTORY
  | FUNDS_NOT_SIGNED
  | INVALID_SIGNATURE
  | INVALID_ADDRESS
  deriving Repr, DecidableEq

/-- Outcomes of the external collaborators consulted by
`acceptXBridgeTransaction`, in call order: connector lookups, dust checks,
BLOCK balance, service-node key length and registry lookup, OP_RETURN size
check, `rpc::unspentP2PKH`, `rpc::createFeeTransaction` (with the fee
utxos it reserves), `selectUtxos` (with the coins it picks), the per-utxo
signing loop (collapsed to its first error, if any), and the block
count/hash queries.  -/
structure AcceptEnv where
  orderFound : Bool
  hasConnFrom : Bool
  hasConnTo : Bool
  dustFrom : Bool
  dustTo : Bool
  balanceOk : Bool
  snodeKeyLenOk : Bool
  snodeFound : Bool
  infoFits : Bool
  unspentOk : Bool
  feeTxOk : Bool
  feeUtxos : List UtxoEntry
  selectOk : Bool
  selectedCoins : List UtxoEntry
  signResult : Option XBridgeError
  blockInfoOk : Bool

/-- The state touched by `acceptXBridgeTransaction`: the order descriptor
and the lock manager (order-lock dictionary and fee-lock set). -/
structure AcceptState where
  order : TransactionDescr
  utxosDict : LockDict
  feeSet : List UtxoEntry

/-- Restore the order's state to the one saved before the advance to
Accepting (`ptr->state = priorState`). -/
def restoreState (priorState : TxState) (st : AcceptState) : AcceptState :=
  { st with order := { st.order with state := priorState } }

/-- Embedding of `App::acceptXBridgeTransaction`
(xbridgeapp.cpp:1675-1970).  The control flow mirrors the source: the two
pre-advance checks, the advance to `trAccepting` with `priorState` saved,
the chain of validations each restoring `priorState` on failure,
`lockFeeUtxos` after a successful fee transaction, `unlockFeeUtxos` on
`selectUtxos` failure and on signing failure, the `lockCoins` failure path
(which restores the state but — unlike the neighbouring paths — does not
call `unlockFeeUtxos`), and the block-info failure path which unlocks both
lock sets and clears the used coins (`clearUsedCoins`, member not under
`src/`, modelled as clearing the used-coin list). -/
def acceptXBridgeTransaction (env : AcceptEnv) (s : AcceptState) :
    XBridgeError × AcceptState :=
  if env.orderFound = false then (.TRANSACTION_NOT_FOUND, s)
  else if stateRank .trAccepting ≤ stateRank s.order.state then
    (.BAD_REQUEST, s)
  else
    let priorState := s.order.state
    let s1 : AcceptState := { s with order := { s.order with state := .trAccepting } }
    if env.hasConnFrom = false ∨ env.hasConnTo = false then
      (.NO_SESSION, restoreState priorState s1)
    else if env.dustFrom then (.DUST, restoreState priorState s1)
    else if env.dustTo then (.DUST, restoreState priorState s1)
    else if env.balanceOk = false then
      (.INSIFFICIENT_FUNDS_DX, restoreState priorState s1)
    else if env.snodeKeyLenOk = false then
      (.NO_SERVICE_NODE, restoreState priorState s1)
    else if env.snodeFound = false then
      (.NO_SERVICE_NODE, restoreState priorState s1)
    else if env.infoFits = false then
      (.INVALID_ONCHAIN_HISTORY, restoreState priorState s1)
    else if env.unspentOk = false then
      (.INSIFFICIENT_FUNDS, restoreState priorState s1)
    else if env.feeTxOk = false then
      (.INSIFFICIENT_FUNDS, restoreState priorState s1)
    else
      let s2 : AcceptState :=
        { s1 with
            order := { s1.order with feeUtxos := env.feeUtxos },
            feeSet := lockFeeUtxos s1.feeSet env.feeUtxos }
      if env.selectOk = false then
        (.INSIFFICIENT_FUNDS, restoreState priorState
          { s2 with feeSet := unlockFeeUtxos s2.feeSet env.feeUtxos })
      else
        match env.signResult with
        | some e =>
            (e, restoreState priorState
              { s2 with feeSet := unlockFeeUtxos s2.feeSet env.feeUtxos })
        | none =>
            let s3 : AcceptState :=
              { s2 with order := { s2.order with usedCoins := env.selectedCoins } }
            let lockRes := lockCoins s3.utxosDict s3.order.fromCurrency
              env.selectedCoins
            if lockRes.1 = false then
              (.INSIFFICIENT_FUNDS, restoreState priorState s3)
            else
              let s4 : AcceptState := { s3 with utxosDict := lockRes.2 }
              if env.blockInfoOk = false then
                (.NO_SESSION, restoreState priorState
                  { s4 with
                      utxosDict := unlockCoins s4.utxosDict
                        s4.order.fromCurrency s4.order.usedCoins,
                      feeSet := unlockFeeUtxos s4.feeSet env.feeUtxos,
                      order := { s4.order with usedCoins := [] } })
              else
                (.SUCCESS, s4)

/-- A fee utxo reserved by `createFeeTransaction` in the failing scenario. -/
def feeUtxo1 : UtxoEntry :=
  { txId := "fee1", vout := 1, address := "addrF", amount := 2 }

/-- The failing input for **C1**: every validation succeeds, the fee utxo
`feeUtxo1` is locked, but the selected coin `sampleUtxo` is already present
in the order-lock dictionary for BTC, so `lockCoins` fails. -/
def bugEnv : AcceptEnv :=
  { orderFound := true
    hasConnFrom := true
    hasConnTo := true
    dustFrom := false
    dustTo := false
    balanceOk := true
    snodeKeyLenOk := true
    snodeFound := true
    infoFits := true
    unspentOk := true
    feeTxOk := true
    feeUtxos := [feeUtxo1]
    selectOk := true
    selectedCoins := [sampleUtxo]
    signResult := none
    blockInfoOk := true }

/-- The state for the failing input: the Pending order `tx0`, `sampleUtxo`
already locked for BTC, no fee locks held. -/
def bugState : AcceptState :=
  { order := tx0
    utxosDict := [("BTC", [sampleUtxo])]
    feeSet := [] }

/-- **C1** (code bug, demonstrated at the failing input): on the
`lockCoins`-failure path, `acceptXBridgeTransaction` returns an error from
a point after the order's state was advanced to Accepting and does restore
the prior state (Pending), but the fee UTXO locks acquired in this call are
NOT removed from the lock manager — `unlockFeeUtxos` is missing from this
error path (xbridgeapp.cpp:1921-1926), unlike every neighbouring failure
path — contradicting the spec's requirement that every such failure
release all locks acquired in the call. -/
theorem acceptXBridgeTransaction_feeLock_leak :
    (acceptXBridgeTransaction bugEnv bugState).1
      = XBridgeError.INSIFFICIENT_FUNDS ∧
    (acceptXBridgeTransaction bugEnv bugState).2.order.state
      = TxState.trPending ∧
    containsUtxo (acceptXBridgeTransaction bugEnv bugState).2.feeSet feeUtxo1
      = true := by
  refine ⟨by decide, by decide, by decide⟩

end XBridge
